import Mathlib

/-!
Verification of the ticker-enrichment candidate-resolution core.

The decision logic of the repository lives in `src/frontend/src/App.tsx`:
alias application during preview normalization (`onChooseFile`), override
management (`setOverrideForRow`), bulk application of top candidates
(`bulkApplyTopCandidates`), the risk classifier (`riskOf`), and the commit
planner (`openCommitPreview`).  This file embeds those functions shallowly:
JavaScript numbers are modelled as rationals (`ℚ`), nullable values as
`Option`, the override map (object keyed by row index) as `ℕ → Option String`,
and the learned-alias map as `String → Option String`.  JavaScript string
statuses are kept as `String` (the source type is `PreviewStatus | string`).
-/

namespace Ticker

/-- Risk tier, from `type RiskLevel = "HIGH" | "MEDIUM" | "LOW"`. -/
inductive RiskLevel where
  | HIGH
  | MEDIUM
  | LOW
deriving DecidableEq, Repr

/-- One candidate match, from `type Candidate` in App.tsx.  The optional
`type` field is named `ctype` here (`type` is reserved in Lean). -/
structure Candidate where
  symbol : String
  name : String
  ctype : Option String
  score : Option ℚ
  source : Option String
deriving DecidableEq, Repr

/-- One preview row, from `type PreviewRow` in App.tsx, after the
normalization step of `onChooseFile` flattened `input.Name` / `input.Symbol`
into the top-level `Name` / `Symbol` fields. -/
structure PreviewRow where
  index : ℕ
  status : String
  candidates : List Candidate
  Name : Option String
  Symbol : Option String
deriving DecidableEq, Repr

/-- One pending change of the commit preview, from `type PendingChange`. -/
structure PendingChange where
  index : ℕ
  name : String
  fromSymbol : String
  toSymbol : String
  score : Option ℚ
  source : Option String
  risk : RiskLevel
deriving DecidableEq, Repr

/-- JavaScript `toUpperCase()`, modelled character by character. -/
def upperStr (s : String) : String := ⟨s.data.map Char.toUpper⟩

/-- JavaScript `toLowerCase()`, modelled character by character. -/
def lowerStr (s : String) : String := ⟨s.data.map Char.toLower⟩

/-- JavaScript `trim()`: strip leading and trailing whitespace. -/
def trimStr (s : String) : String :=
  ⟨((s.data.dropWhile Char.isWhitespace).reverse.dropWhile
      Char.isWhitespace).reverse⟩

/-- The `norm` helper of App.tsx:
`(s ?? "").toString().trim().toLowerCase()`. -/
def norm (s : Option String) : String := lowerStr (trimStr (s.getD ""))

/-- The score bump applied to an alias hit in `onChooseFile`:
`typeof hit.score === "number" ? Math.min(hit.score + 0.05, 0.999) : hit.score`. -/
def bumpScore (s : Option ℚ) : Option ℚ :=
  match s with
  | some x => some (min (x + 0.05) 0.999)
  | none => none

/-- The `findIndex` / `splice` pair of `onChooseFile`: find the first
candidate whose symbol matches `learned` case-insensitively
(`c.symbol?.toUpperCase() === learned.toUpperCase()`), and return it together
with the list with that occurrence removed; `none` when no candidate
matches. -/
def moveAliasToFront (learned : String) : List Candidate → Option (Candidate × List Candidate)
  | [] => none
  | c :: cs =>
    if upperStr c.symbol = upperStr learned then some (c, cs)
    else (moveAliasToFront learned cs).map (fun p => (p.1, c :: p.2))

/-- Learned-alias application from the preview normalization in
`onChooseFile` (App.tsx lines 469–480): when an alias is learned for the
row's normalized name and its symbol appears among the candidates, splice
that candidate out, bump its score, and unshift it to position 0; otherwise
the candidate list is unchanged. -/
def applyAlias (aliases : String → Option String) (nameKey : String)
    (cands : List Candidate) : List Candidate :=
  match aliases nameKey with
  | none => cands
  | some learned =>
    match moveAliasToFront learned cands with
    | none => cands
    | some (hit, rest) => { hit with score := bumpScore hit.score } :: rest

/-- The risk classifier `riskOf(score?, source?)` of App.tsx:
missing score is HIGH, `score >= 0.85` is LOW, `score >= 0.6` is MEDIUM,
anything lower is HIGH; the `source` argument is ignored. -/
def riskOf (score : Option ℚ) (source : Option String) : RiskLevel :=
  match score with
  | none => RiskLevel.HIGH
  | some s =>
    if s ≥ 0.85 then RiskLevel.LOW
    else if s ≥ 0.6 then RiskLevel.MEDIUM
    else RiskLevel.HIGH

/-- Numeric severity rank of a risk tier, from the comparator table
`rk = \x7b HIGH: 2, MEDIUM: 1, LOW: 0 \x7d` in `openCommitPreview`. -/
def rk : RiskLevel → ℕ
  | RiskLevel.HIGH => 2
  | RiskLevel.MEDIUM => 1
  | RiskLevel.LOW => 0

/-- The body of the per-row loop of `openCommitPreview` (App.tsx lines
594–611): an absent or empty override together with a non-FILLED status
skips the row (the source's local `to`, here `tov`); otherwise the chosen
symbol is the override if truthy, else
the top candidate's symbol for FILLED rows; an empty chosen symbol skips the
row; score and source come from the candidate matching the override (exact
symbol equality) or from the top candidate. -/
def changeOf (overrides : ℕ → Option String) (r : PreviewRow) :
    Option PendingChange :=
  let tov := (overrides r.index).getD ""
  if tov = "" ∧ r.status ≠ "FILLED" then none
  else
    let top := r.candidates.head?
    let chosen :=
      if tov ≠ "" then tov
      else if r.status = "FILLED" then (top.map Candidate.symbol).getD ""
      else ""
    if chosen = "" then none
    else
      let sc :=
        if tov ≠ "" then
          (r.candidates.find? (fun c => c.symbol = tov)).bind Candidate.score
        else top.bind Candidate.score
      let src :=
        if tov ≠ "" then
          (r.candidates.find? (fun c => c.symbol = tov)).bind Candidate.source
        else top.bind Candidate.source
      some { index := r.index, name := r.Name.getD "",
             fromSymbol := r.Symbol.getD "", toSymbol := chosen,
             score := sc, source := src, risk := riskOf sc src }

/-- The `b.score ?? -1` fallback used by the comparator in
`openCommitPreview`. -/
def scoreD (c : PendingChange) : ℚ := c.score.getD (-1)

/-- "`a` sorts no later than `b`" for the comparator of `changes.sort` in
`openCommitPreview`: higher risk rank first, then higher score (missing
score read as -1). -/
def ChangeLE (a b : PendingChange) : Prop :=
  rk b.risk < rk a.risk ∨ (rk a.risk = rk b.risk ∧ scoreD b ≤ scoreD a)

instance : DecidableRel ChangeLE := fun a b => by
  unfold ChangeLE
  infer_instance

/-- `openCommitPreview` (App.tsx lines 591–620): build one pending change
per eligible row, then sort by risk descending and score descending.
JavaScript `Array.prototype.sort` is stable, modelled by insertion sort. -/
def openCommitPreview (rows : List PreviewRow)
    (overrides : ℕ → Option String) : List PendingChange :=
  List.insertionSort ChangeLE (rows.filterMap (changeOf overrides))

/-- The alias pass of the preview normalization in `onChooseFile`: each
row's candidate list goes through `applyAlias` keyed by the row's
normalized name. -/
def previewNormalize (aliases : String → Option String)
    (rows : List PreviewRow) : List PreviewRow :=
  rows.map (fun r =>
    { r with candidates := applyAlias aliases (norm r.Name) r.candidates })

/-- The full commit-planning pipeline: alias state is consumed by the
preview normalization, then `openCommitPreview` builds the ordered
change-set from the normalized rows and the override map. -/
def planCommit (aliases : String → Option String) (rows : List PreviewRow)
    (overrides : ℕ → Option String) : List PendingChange :=
  openCommitPreview (previewNormalize aliases rows) overrides

/-- Modelled from the spec: the backend Row Resolver (§4.4) is not part of
src/ (only the frontend is present).  Per §4.4, a row with a non-blank
original Symbol is `FILLED` and its Symbol is passed through unchanged as
the top candidate ("pass-through enrichment", §4.6 and §8); a blank Name is
`UNCHANGED`; otherwise the aggregated candidates decide between `NOT_FOUND`
(empty) and `AMBIGUOUS` (non-empty). -/
def resolveRow (idx : ℕ) (nm sym : Option String)
    (aggregated : List Candidate) : PreviewRow :=
  if trimStr (sym.getD "") ≠ "" then
    { index := idx, status := "FILLED",
      candidates := [{ symbol := sym.getD "", name := nm.getD "",
                       ctype := none, score := none, source := none }],
      Name := nm, Symbol := sym }
  else if trimStr (nm.getD "") = "" then
    { index := idx, status := "UNCHANGED", candidates := [],
      Name := nm, Symbol := sym }
  else if aggregated.isEmpty then
    { index := idx, status := "NOT_FOUND", candidates := [],
      Name := nm, Symbol := sym }
  else
    { index := idx, status := "AMBIGUOUS", candidates := aggregated,
      Name := nm, Symbol := sym }

/-- The session's override map (row index → symbol) and learned-alias map
(normalized name → symbol), the two pieces of state written by
`setOverrideForRow` and `bulkApplyTopCandidates`. -/
structure SessionState where
  overrides : ℕ → Option String
  aliases : String → Option String

/-- `setOverrideForRow(rowIndex, value)` of App.tsx (lines 509–523): an
empty value deletes the override entry for that row and touches nothing
else; a non-empty value sets the override and immediately learns an alias
for the row's normalized name when that normalized name is non-empty. -/
def setOverrideForRow (rows : List PreviewRow) (st : SessionState)
    (rowIndex : ℕ) (value : String) : SessionState :=
  if value = "" then
    { st with overrides :=
        fun j => if j = rowIndex then none else st.overrides j }
  else
    let nm := norm ((rows.find? (fun rr => rr.index == rowIndex)).bind
      PreviewRow.Name)
    { overrides := fun j => if j = rowIndex then some value
        else st.overrides j,
      aliases :=
        if nm = "" then st.aliases
        else fun k => if k = nm then some value else st.aliases k }

/-- The state update `bulkApplyTopCandidates` performs on one applied row:
override set to the top candidate's symbol; alias learned for the row's
normalized name when that name is non-empty. -/
def bulkApplyRowUpdate (st : SessionState) (r : PreviewRow)
    (top : Candidate) : SessionState :=
  let nm := norm r.Name
  { overrides := fun j => if j = r.index then some top.symbol
      else st.overrides j,
    aliases :=
      if nm = "" then st.aliases
      else fun k => if k = nm then some top.symbol else st.aliases k }

/-- One iteration of the `for (const r of filtered)` loop of
`bulkApplyTopCandidates` (App.tsx lines 527–544): rows with status FILLED
or AMBIGUOUS and at least one candidate are applied, except when the top
candidate carries a present score below the minimum
(`typeof top.score === "number" && top.score < bulkMinScore`). -/
def bulkStep (bulkMinScore : ℚ) (st : SessionState) (r : PreviewRow) :
    SessionState :=
  match r.candidates with
  | [] => st
  | top :: _ =>
    if r.status = "FILLED" ∨ r.status = "AMBIGUOUS" then
      match top.score with
      | some s => if s < bulkMinScore then st else bulkApplyRowUpdate st r top
      | none => bulkApplyRowUpdate st r top
    else st

/-- `bulkApplyTopCandidates` of App.tsx: fold the per-row step over the
rows visible under the active filter. -/
def bulkApplyTopCandidates (bulkMinScore : ℚ) (filtered : List PreviewRow)
    (st : SessionState) : SessionState :=
  filtered.foldl (bulkStep bulkMinScore) st

/-- The top candidate's score clears the bulk-apply bar: either it is
missing, or it is at least the minimum. -/
def topScoreOk (bulkMinScore : ℚ) (sc : Option ℚ) : Bool :=
  match sc with
  | some s => decide (bulkMinScore ≤ s)
  | none => true

/-- Whether `bulkApplyTopCandidates` applies to a row. -/
def qualifies (bulkMinScore : ℚ) (r : PreviewRow) : Bool :=
  (r.status == "FILLED" || r.status == "AMBIGUOUS") &&
  !r.candidates.isEmpty &&
  topScoreOk bulkMinScore (r.candidates.head?.bind Candidate.score)

instance : IsTotal PendingChange ChangeLE := ⟨by
  intro a b
  unfold ChangeLE
  rcases lt_trichotomy (rk a.risk) (rk b.risk) with h | h | h
  · exact Or.inr (Or.inl h)
  · rcases le_total (scoreD b) (scoreD a) with hs | hs
    · exact Or.inl (Or.inr ⟨h, hs⟩)
    · exact Or.inr (Or.inr ⟨h.symm, hs⟩)
  · exact Or.inl (Or.inl h)⟩

instance : IsTrans PendingChange ChangeLE := ⟨by
  intro a b c hab hbc
  unfold ChangeLE at hab hbc ⊢
  rcases hab with h1 | ⟨e1, s1⟩ <;> rcases hbc with h2 | ⟨e2, s2⟩
  · exact Or.inl (by omega)
  · exact Or.inl (by omega)
  · exact Or.inl (by omega)
  · exact Or.inr ⟨by omega, le_trans s2 s1⟩⟩

end Ticker

namespace Ticker

/-- C3: the risk classifier is a pure function of the score: it returns HIGH
when the score is missing, LOW when score ≥ 0.85, MEDIUM when
0.60 ≤ score < 0.85, HIGH when score < 0.60, and the source argument never
alters the tier. -/
theorem riskOf_pure_of_score (s : ℚ) (src src2 : Option String) :
    riskOf none src = RiskLevel.HIGH ∧
    (0.85 ≤ s → riskOf (some s) src = RiskLevel.LOW) ∧
    (0.6 ≤ s → s < 0.85 → riskOf (some s) src = RiskLevel.MEDIUM) ∧
    (s < 0.6 → riskOf (some s) src = RiskLevel.HIGH) ∧
    (∀ sc : Option ℚ, riskOf sc src = riskOf sc src2) := by
  refine ⟨rfl, ?_, ?_, ?_, ?_⟩
  · intro h
    simp [riskOf, h]
  · intro h1 h2
    have : ¬ (s ≥ 0.85) := by linarith
    simp [riskOf, this, h1]
  · intro h
    have h1 : ¬ (s ≥ 0.85) := by linarith
    have h2 : ¬ (s ≥ 0.6) := by linarith
    simp [riskOf, h1, h2]
  · intro sc
    cases sc <;> rfl

/-- Witness: `riskOf_pure_of_score` evaluated at concrete scores. -/
theorem riskOf_pure_of_score_witness :
    riskOf (some 0.9) none = RiskLevel.LOW ∧
    riskOf (some 0.7) none = RiskLevel.MEDIUM ∧
    riskOf (some 0.3) (some "FINNHUB") = RiskLevel.HIGH :=
  ⟨(riskOf_pure_of_score 0.9 none none).2.1 (by norm_num),
   (riskOf_pure_of_score 0.7 none none).2.2.1 (by norm_num) (by norm_num),
   (riskOf_pure_of_score 0.3 (some "FINNHUB") none).2.2.2.1 (by norm_num)⟩

/-- C9: the risk classifier is antitone in score severity: for present scores
s1 < s2, the severity rank of `riskOf s1` is ≥ the severity rank of
`riskOf s2` (HIGH = 2 ≥ MEDIUM = 1 ≥ LOW = 0). -/
theorem riskOf_antitone (s1 s2 : ℚ) (src : Option String) (h : s1 < s2) :
    rk (riskOf (some s2) src) ≤ rk (riskOf (some s1) src) := by
  simp only [riskOf]
  split_ifs <;> simp [rk] <;> linarith

/-- Witness: `riskOf_antitone` at scores 0.5 < 0.9. -/
theorem riskOf_antitone_witness :
    rk (riskOf (some 0.9) none) ≤ rk (riskOf (some 0.5) none) :=
  riskOf_antitone 0.5 0.9 none (by norm_num)

/-- Unfolding lemma: no learned alias means no change. -/
theorem applyAlias_no_alias (aliases : String → Option String) (key : String)
    (cands : List Candidate) (ha : aliases key = none) :
    applyAlias aliases key cands = cands := by
  unfold applyAlias
  rw [ha]

/-- Unfolding lemma: with a learned alias, `applyAlias` reduces to a match on
`moveAliasToFront`. -/
theorem applyAlias_some (aliases : String → Option String) (key : String)
    {a : String} (cands : List Candidate) (ha : aliases key = some a) :
    applyAlias aliases key cands
      = match moveAliasToFront a cands with
        | none => cands
        | some (hit, rest) => { hit with score := bumpScore hit.score } :: rest := by
  unfold applyAlias
  rw [ha]

/-- Unfolding lemma: alias learned but absent from the candidates. -/
theorem applyAlias_of_notFound (aliases : String → Option String) (key : String)
    {a : String} {cands : List Candidate} (ha : aliases key = some a)
    (hm : moveAliasToFront a cands = none) :
    applyAlias aliases key cands = cands := by
  rw [applyAlias_some aliases key cands ha, hm]

/-- Unfolding lemma: alias learned and found among the candidates. -/
theorem applyAlias_of_found (aliases : String → Option String) (key : String)
    {a : String} {cands rest : List Candidate} {hit : Candidate}
    (ha : aliases key = some a)
    (hm : moveAliasToFront a cands = some (hit, rest)) :
    applyAlias aliases key cands
      = { hit with score := bumpScore hit.score } :: rest := by
  rw [applyAlias_some aliases key cands ha, hm]

/-- A candidate returned by `moveAliasToFront` matches the learned symbol
case-insensitively. -/
theorem moveAliasToFront_matches {learned : String} {cs : List Candidate}
    {hit : Candidate} {rest : List Candidate}
    (h : moveAliasToFront learned cs = some (hit, rest)) :
    upperStr hit.symbol = upperStr learned := by
  induction cs generalizing hit rest with
  | nil => exact Option.noConfusion h
  | cons c cs ih =>
    by_cases hc : upperStr c.symbol = upperStr learned
    · rw [moveAliasToFront, if_pos hc] at h
      simp only [Option.some.injEq, Prod.mk.injEq] at h
      obtain ⟨h1, _⟩ := h
      subst h1
      exact hc
    · rw [moveAliasToFront, if_neg hc] at h
      cases hm : moveAliasToFront learned cs with
      | none => rw [hm] at h; simp at h
      | some p =>
        rw [hm] at h
        simp at h
        obtain ⟨h1, _⟩ := h
        subst h1
        exact ih (by rw [hm])

/-- When no candidate matches, `moveAliasToFront` finds nothing. -/
theorem moveAliasToFront_eq_none {learned : String} {cs : List Candidate}
    (h : ∀ c ∈ cs, upperStr c.symbol ≠ upperStr learned) :
    moveAliasToFront learned cs = none := by
  induction cs with
  | nil => rfl
  | cons c cs ih =>
    rw [moveAliasToFront, if_neg (h c (by simp)),
      ih (fun d hd => h d (by simp [hd]))]
    rfl

/-- `moveAliasToFront` splits off the first case-insensitive match and keeps
the remaining candidates in their original relative order. -/
theorem moveAliasToFront_append {learned : String} {l₁ l₂ : List Candidate}
    {hit : Candidate}
    (h₁ : ∀ c ∈ l₁, upperStr c.symbol ≠ upperStr learned)
    (h : upperStr hit.symbol = upperStr learned) :
    moveAliasToFront learned (l₁ ++ hit :: l₂) = some (hit, l₁ ++ l₂) := by
  induction l₁ with
  | nil => simp [moveAliasToFront, h]
  | cons c l₁ ih =>
    have hc := h₁ c (by simp)
    rw [List.cons_append, moveAliasToFront, if_neg hc,
      ih (fun d hd => h₁ d (by simp [hd]))]
    rfl

/-- C4: when an alias `a` is learned for the row's normalized name and its
symbol appears among the candidates (case-insensitive symbol match, first
occurrence written `hit`, preceded by non-matching `l₁`), alias application
removes `hit` from its position, bumps its score by +0.05 capped at 0.999,
and reinserts it at position 0 while every other candidate keeps its
original relative order (`l₁ ++ l₂`); when no candidate matches, the list is
returned unchanged. -/
theorem applyAlias_spec (aliases : String → Option String) (key a : String)
    (ha : aliases key = some a) :
    (∀ (l₁ l₂ : List Candidate) (hit : Candidate),
      (∀ c ∈ l₁, upperStr c.symbol ≠ upperStr a) →
      upperStr hit.symbol = upperStr a →
        applyAlias aliases key (l₁ ++ hit :: l₂)
          = { hit with score := bumpScore hit.score } :: (l₁ ++ l₂)
        ∧ ∀ s : ℚ, hit.score = some s →
            bumpScore hit.score = some (min (s + 0.05) 0.999)) ∧
    (∀ cands : List Candidate,
      (∀ c ∈ cands, upperStr c.symbol ≠ upperStr a) →
        applyAlias aliases key cands = cands) := by
  constructor
  · intro l₁ l₂ hit h₁ h
    constructor
    · exact applyAlias_of_found aliases key ha (moveAliasToFront_append h₁ h)
    · intro s hs
      rw [hs]
      rfl
  · intro cands h
    exact applyAlias_of_notFound aliases key ha (moveAliasToFront_eq_none h)

/-- Witness: `applyAlias_spec` on a two-candidate list with the alias hit in
second position; the hit moves to the front with score
min(0.9 + 0.05, 0.999) = 0.95 and the other candidate keeps its place. -/
theorem applyAlias_spec_witness :
    applyAlias (fun k => if k = "apple inc." then some "AAPL" else none)
        "apple inc."
        ([⟨"APLE", "Apple Hospitality", none, some 0.4, none⟩]
          ++ [⟨"AAPL", "Apple Inc", none, some 0.9, none⟩])
      = [⟨"AAPL", "Apple Inc", none, some 0.95, none⟩,
         ⟨"APLE", "Apple Hospitality", none, some 0.4, none⟩] := by
  have h := (applyAlias_spec
      (fun k => if k = "apple inc." then some "AAPL" else none)
      "apple inc." "AAPL" (by decide)).1
      [⟨"APLE", "Apple Hospitality", none, some 0.4, none⟩] []
      ⟨"AAPL", "Apple Inc", none, some 0.9, none⟩
      (by decide) (by decide)
  rw [h.1]
  have hb : bumpScore (some 0.9) = some 0.95 := by
    show some (min (0.9 + 0.05) 0.999) = some 0.95
    norm_num [min_def]
  simp [hb]

/-- C8 counterexample: alias application is not idempotent — a second
application re-adds the +0.05 bonus (here 0.5 becomes 0.55, then 0.6), so
the second application does not leave the list unchanged. -/
theorem applyAlias_not_idempotent :
    applyAlias (fun k => if k = "apple inc." then some "AAPL" else none)
        "apple inc."
        (applyAlias (fun k => if k = "apple inc." then some "AAPL" else none)
          "apple inc." [⟨"AAPL", "Apple Inc", none, some 0.5, none⟩])
      ≠ applyAlias (fun k => if k = "apple inc." then some "AAPL" else none)
          "apple inc." [⟨"AAPL", "Apple Inc", none, some 0.5, none⟩] := by
  have hm1 : moveAliasToFront "AAPL"
      [(⟨"AAPL", "Apple Inc", none, some 0.5, none⟩ : Candidate)]
      = some (⟨"AAPL", "Apple Inc", none, some 0.5, none⟩, []) := by
    rw [moveAliasToFront, if_pos rfl]
  have hm2 : moveAliasToFront "AAPL"
      [(⟨"AAPL", "Apple Inc", none, some 0.55, none⟩ : Candidate)]
      = some (⟨"AAPL", "Apple Inc", none, some 0.55, none⟩, []) := by
    rw [moveAliasToFront, if_pos rfl]
  have hb1 : bumpScore (some 0.5) = some 0.55 := by
    show some (min (0.5 + 0.05) 0.999) = some 0.55
    norm_num [min_def]
  have hb2 : bumpScore (some 0.55) = some 0.6 := by
    show some (min (0.55 + 0.05) 0.999) = some 0.6
    norm_num [min_def]
  have ha : (fun k => if k = "apple inc." then some "AAPL" else none)
      "apple inc." = some "AAPL" := by decide
  have h1 : applyAlias (fun k => if k = "apple inc." then some "AAPL" else none)
      "apple inc." [⟨"AAPL", "Apple Inc", none, some 0.5, none⟩]
      = [⟨"AAPL", "Apple Inc", none, some 0.55, none⟩] := by
    rw [applyAlias_of_found
      (fun k => if k = "apple inc." then some "AAPL" else none) "apple inc."
      ha hm1]
    simp [hb1]
  have h2 : applyAlias (fun k => if k = "apple inc." then some "AAPL" else none)
      "apple inc." [⟨"AAPL", "Apple Inc", none, some 0.55, none⟩]
      = [⟨"AAPL", "Apple Inc", none, some 0.6, none⟩] := by
    rw [applyAlias_of_found
      (fun k => if k = "apple inc." then some "AAPL" else none) "apple inc."
      ha hm2]
    simp [hb2]
  rw [h1, h2]
  intro hEq
  simp only [List.cons.injEq, Candidate.mk.injEq, Option.some.injEq] at hEq
  have : (0.6 : ℚ) = 0.55 := hEq.1.2.2.2.1
  norm_num at this

/-- C8 amended: applying the alias operation twice yields the same candidate
symbols in the same order as applying it once (in particular the same top
candidate), but the second application either changes nothing (no alias
match) or re-applies the +0.05 bonus, capped at 0.999, to the head
candidate's score. -/
theorem applyAlias_twice (aliases : String → Option String) (key : String)
    (cands : List Candidate) :
    ((applyAlias aliases key (applyAlias aliases key cands)).map
        Candidate.symbol
      = (applyAlias aliases key cands).map Candidate.symbol) ∧
    (applyAlias aliases key (applyAlias aliases key cands)
        = applyAlias aliases key cands ∨
     ∃ (hit : Candidate) (rest : List Candidate),
       applyAlias aliases key cands
         = { hit with score := bumpScore hit.score } :: rest ∧
       applyAlias aliases key (applyAlias aliases key cands)
         = { hit with score := bumpScore (bumpScore hit.score) } :: rest) := by
  cases ha : aliases key with
  | none =>
    rw [applyAlias_no_alias aliases key cands ha,
      applyAlias_no_alias aliases key cands ha]
    exact ⟨rfl, Or.inl rfl⟩
  | some a =>
    cases hm : moveAliasToFront a cands with
    | none =>
      have h1 : applyAlias aliases key cands = cands :=
        applyAlias_of_notFound aliases key ha hm
      rw [h1, h1]
      exact ⟨rfl, Or.inl rfl⟩
    | some p =>
      obtain ⟨hit, rest⟩ := p
      have hmatch := moveAliasToFront_matches hm
      have h1 : applyAlias aliases key cands
          = { hit with score := bumpScore hit.score } :: rest :=
        applyAlias_of_found aliases key ha hm
      have hm2 : moveAliasToFront a
          ({ hit with score := bumpScore hit.score } :: rest)
            = some ({ hit with score := bumpScore hit.score }, rest) := by
        have h0 : ∀ c ∈ ([] : List Candidate),
            upperStr c.symbol ≠ upperStr a := by simp
        have hmatch2 : upperStr
            ({ hit with score := bumpScore hit.score } : Candidate).symbol
              = upperStr a := hmatch
        have h3 : moveAliasToFront a
            ([] ++ { hit with score := bumpScore hit.score } :: rest)
              = some ({ hit with score := bumpScore hit.score }, [] ++ rest) :=
          moveAliasToFront_append h0 hmatch2
        simpa using h3
      have h2 : applyAlias aliases key (applyAlias aliases key cands)
          = { hit with score := bumpScore (bumpScore hit.score) } :: rest := by
        rw [h1]
        exact applyAlias_of_found aliases key ha hm2
      exact ⟨by rw [h2, h1]; simp, Or.inr ⟨hit, rest, h1, h2⟩⟩

/-- An override entry that is present and truthy fully determines the
pending change built for a row. -/
theorem changeOf_of_override {ov : ℕ → Option String} {r : PreviewRow}
    {t : String} (hov : ov r.index = some t) (ht : t ≠ "") :
    changeOf ov r = some {
      index := r.index,
      name := r.Name.getD "",
      fromSymbol := r.Symbol.getD "",
      toSymbol := t,
      score := (r.candidates.find? (fun c => c.symbol = t)).bind
        Candidate.score,
      source := (r.candidates.find? (fun c => c.symbol = t)).bind
        Candidate.source,
      risk := riskOf
        ((r.candidates.find? (fun c => c.symbol = t)).bind Candidate.score)
        ((r.candidates.find? (fun c => c.symbol = t)).bind
          Candidate.source) } := by
  unfold changeOf
  rw [hov]
  simp [ht]

/-- Without a truthy override, a FILLED row with a top candidate whose
symbol is non-empty yields the pass-through pending change. -/
theorem changeOf_of_filled {ov : ℕ → Option String} {r : PreviewRow}
    {top : Candidate} (hov : (ov r.index).getD "" = "")
    (hst : r.status = "FILLED") (htop : r.candidates.head? = some top)
    (hsym : top.symbol ≠ "") :
    changeOf ov r = some {
      index := r.index,
      name := r.Name.getD "",
      fromSymbol := r.Symbol.getD "",
      toSymbol := top.symbol,
      score := top.score,
      source := top.source,
      risk := riskOf top.score top.source } := by
  unfold changeOf
  rw [hov, hst, htop]
  simp [hsym]

/-- Without a truthy override, a non-FILLED row is skipped. -/
theorem changeOf_none_of_skip {ov : ℕ → Option String} {r : PreviewRow}
    (hov : (ov r.index).getD "" = "") (hst : r.status ≠ "FILLED") :
    changeOf ov r = none := by
  unfold changeOf
  rw [hov]
  simp [hst]

/-- Membership in the commit preview is membership in the per-row change
construction: the sort permutes, it does not add or drop entries. -/
theorem mem_openCommitPreview {rows : List PreviewRow}
    {ov : ℕ → Option String} {c : PendingChange} :
    c ∈ openCommitPreview rows ov ↔ ∃ r ∈ rows, changeOf ov r = some c := by
  unfold openCommitPreview
  rw [(List.perm_insertionSort ChangeLE
    (rows.filterMap (changeOf ov))).mem_iff]
  simp [List.mem_filterMap]

/-- C1: the committed symbol in the change-set follows strict precedence:
a truthy override for the row's index is always used; otherwise a FILLED
row contributes its top candidate's symbol; a row with status AMBIGUOUS,
NOT_FOUND or UNCHANGED and no override contributes no entry. -/
theorem openCommitPreview_precedence (rows : List PreviewRow)
    (ov : ℕ → Option String) (r : PreviewRow) (hr : r ∈ rows) :
    (∀ t : String, ov r.index = some t → t ≠ "" →
      ∃ c ∈ openCommitPreview rows ov,
        c.index = r.index ∧ c.toSymbol = t) ∧
    ((ov r.index).getD "" = "" → r.status = "FILLED" →
      ∀ top : Candidate, r.candidates.head? = some top → top.symbol ≠ "" →
        ∃ c ∈ openCommitPreview rows ov,
          c.index = r.index ∧ c.toSymbol = top.symbol) ∧
    ((ov r.index).getD "" = "" →
      (r.status = "AMBIGUOUS" ∨ r.status = "NOT_FOUND" ∨
        r.status = "UNCHANGED") →
      changeOf ov r = none) := by
  refine ⟨?_, ?_, ?_⟩
  · intro t hov ht
    refine ⟨_, mem_openCommitPreview.mpr ⟨r, hr, changeOf_of_override hov ht⟩,
      rfl, rfl⟩
  · intro hov hst top htop hsym
    refine ⟨_, mem_openCommitPreview.mpr
      ⟨r, hr, changeOf_of_filled hov hst htop hsym⟩, rfl, rfl⟩
  · intro hov hst
    refine changeOf_none_of_skip hov ?_
    rcases hst with h | h | h <;> rw [h] <;> decide

/-- Witness: `openCommitPreview_precedence` on one AMBIGUOUS row with an
override `"AAPL"` — the change-set contains an entry for it — and one
AMBIGUOUS row without override, which contributes nothing. -/
theorem openCommitPreview_precedence_witness :
    (∃ c ∈ openCommitPreview
        [⟨0, "AMBIGUOUS", [⟨"AAPL", "Apple Inc", none, some 0.9, none⟩],
          some "Apple Inc.", none⟩,
         ⟨1, "AMBIGUOUS", [⟨"MSFT", "Microsoft", none, some 0.9, none⟩],
          some "Microsoft", none⟩]
        (fun i => if i = 0 then some "AAPL" else none),
      c.index = 0 ∧ c.toSymbol = "AAPL") ∧
    changeOf (fun i => if i = 0 then some "AAPL" else none)
      (⟨1, "AMBIGUOUS", [⟨"MSFT", "Microsoft", none, some 0.9, none⟩],
        some "Microsoft", none⟩ : PreviewRow) = none := by
  constructor
  · exact (openCommitPreview_precedence
      [⟨0, "AMBIGUOUS", [⟨"AAPL", "Apple Inc", none, some 0.9, none⟩],
        some "Apple Inc.", none⟩,
       ⟨1, "AMBIGUOUS", [⟨"MSFT", "Microsoft", none, some 0.9, none⟩],
        some "Microsoft", none⟩]
      (fun i => if i = 0 then some "AAPL" else none)
      ⟨0, "AMBIGUOUS", [⟨"AAPL", "Apple Inc", none, some 0.9, none⟩],
        some "Apple Inc.", none⟩
      (by simp)).1 "AAPL" (by decide) (by decide)
  · exact (openCommitPreview_precedence
      [⟨0, "AMBIGUOUS", [⟨"AAPL", "Apple Inc", none, some 0.9, none⟩],
        some "Apple Inc.", none⟩,
       ⟨1, "AMBIGUOUS", [⟨"MSFT", "Microsoft", none, some 0.9, none⟩],
        some "Microsoft", none⟩]
      (fun i => if i = 0 then some "AAPL" else none) _
      (by simp)).2.2 (by decide) (Or.inl rfl)

/-- If a string trims to something non-empty it is itself non-empty. -/
theorem ne_empty_of_trim_ne_empty {s : String}
    (h : trimStr s ≠ "") : s ≠ "" := by
  intro he
  exact h (by rw [he]; rfl)

/-- C2: a row whose original Symbol is non-blank resolves to status FILLED,
and absent an override the commit planner commits exactly the original
Symbol for it. -/
theorem resolveRow_filled_passthrough (idx : ℕ) (nm sym : Option String)
    (aggregated : List Candidate) (ov : ℕ → Option String)
    (hsym : trimStr (sym.getD "") ≠ "") :
    (resolveRow idx nm sym aggregated).status = "FILLED" ∧
    (ov idx = none →
      ∃ c, changeOf ov (resolveRow idx nm sym aggregated) = some c ∧
        c.index = idx ∧ c.toSymbol = sym.getD "") := by
  constructor
  · unfold resolveRow
    rw [if_pos hsym]
  · intro hov
    have hrow : resolveRow idx nm sym aggregated
        = { index := idx, status := "FILLED",
            candidates := [{ symbol := sym.getD "", name := nm.getD "",
                             ctype := none, score := none, source := none }],
            Name := nm, Symbol := sym } := by
      unfold resolveRow
      rw [if_pos hsym]
    rw [hrow]
    have htop : ((⟨idx, "FILLED",
        [⟨sym.getD "", nm.getD "", none, none, none⟩], nm, sym⟩
          : PreviewRow)).candidates.head?
        = some ⟨sym.getD "", nm.getD "", none, none, none⟩ := rfl
    refine ⟨_, changeOf_of_filled (by rw [hov]; rfl) rfl htop
      (ne_empty_of_trim_ne_empty hsym), rfl, rfl⟩

/-- Witness: `resolveRow_filled_passthrough` for a row that already has
Symbol "AAPL": it is FILLED and commits "AAPL". -/
theorem resolveRow_filled_passthrough_witness :
    (resolveRow 0 (some "Apple Inc.") (some "AAPL") []).status = "FILLED" ∧
    (∃ c, changeOf (fun _ => none)
        (resolveRow 0 (some "Apple Inc.") (some "AAPL") []) = some c ∧
      c.index = 0 ∧ c.toSymbol = "AAPL") := by
  have h := resolveRow_filled_passthrough 0 (some "Apple Inc.")
    (some "AAPL") [] (fun _ => none) (by decide)
  exact ⟨h.1, h.2 rfl⟩

/-- C6: the change-set shown for review is pairwise ordered by risk
severity descending (every HIGH entry before every MEDIUM entry before
every LOW entry), and within equal risk by score descending (missing
scores read as -1 by the comparator). -/
theorem openCommitPreview_sorted (rows : List PreviewRow)
    (ov : ℕ → Option String) :
    (openCommitPreview rows ov).Pairwise (fun a b =>
      rk b.risk ≤ rk a.risk ∧ (a.risk = b.risk → scoreD b ≤ scoreD a)) := by
  have hs := List.sorted_insertionSort ChangeLE
    (rows.filterMap (changeOf ov))
  refine hs.imp ?_
  intro a b hab
  rcases hab with h | ⟨h1, h2⟩
  · refine ⟨le_of_lt h, ?_⟩
    intro he
    rw [he] at h
    exact absurd h (lt_irrefl _)
  · exact ⟨le_of_eq h1.symm, fun _ => h2⟩

/-- C7: commit planning is deterministic — identical rows, override map and
alias state produce identical change-sets in identical order.  The
embedding is a pure function of exactly these three inputs; neither time
nor any other ambient state occurs in it. -/
theorem planCommit_deterministic (al1 al2 : String → Option String)
    (rows1 rows2 : List PreviewRow) (ov1 ov2 : ℕ → Option String)
    (ha : al1 = al2) (hr : rows1 = rows2) (ho : ov1 = ov2) :
    planCommit al1 rows1 ov1 = planCommit al2 rows2 ov2 := by
  rw [ha, hr, ho]

/-- `bulkStep` in terms of `qualifies`: a qualifying row is applied, any
other row is left untouched. -/
theorem bulkStep_eq (ms : ℚ) (st : SessionState) (r : PreviewRow) :
    bulkStep ms st r =
      if qualifies ms r then
        match r.candidates with
        | [] => st
        | top :: _ => bulkApplyRowUpdate st r top
      else st := by
  cases hc : r.candidates with
  | nil => simp [bulkStep, qualifies, hc]
  | cons top tl =>
    by_cases hs : r.status = "FILLED" ∨ r.status = "AMBIGUOUS"
    · rcases hs with h | h
      · cases hsc : top.score with
        | none => simp [bulkStep, qualifies, topScoreOk, hc, h, hsc]
        | some s =>
          by_cases hlt : s < ms
          · simp [bulkStep, qualifies, topScoreOk, hc, h, hsc, hlt,
              not_le.mpr hlt]
          · simp [bulkStep, qualifies, topScoreOk, hc, h, hsc, hlt,
              not_lt.mp hlt]
      · cases hsc : top.score with
        | none => simp [bulkStep, qualifies, topScoreOk, hc, h, hsc]
        | some s =>
          by_cases hlt : s < ms
          · simp [bulkStep, qualifies, topScoreOk, hc, h, hsc, hlt,
              not_le.mpr hlt]
          · simp [bulkStep, qualifies, topScoreOk, hc, h, hsc, hlt,
              not_lt.mp hlt]
    · push_neg at hs
      simp [bulkStep, qualifies, hc, hs.1, hs.2]

/-- A qualifying row has at least one candidate. -/
theorem qualifies_candidates_ne_nil {ms : ℚ} {r : PreviewRow}
    (hq : qualifies ms r = true) : r.candidates ≠ [] := by
  intro hc
  simp [qualifies, hc] at hq

/-- Override-map characterization of bulk apply: after the fold, the entry
at index `j` is the top candidate symbol of the last qualifying visible row
with that index, and is untouched when no such row exists. -/
theorem bulkApply_overrides_char (ms : ℚ) (rows : List PreviewRow)
    (st : SessionState) (j : ℕ) :
    (bulkApplyTopCandidates ms rows st).overrides j
      = match rows.reverse.find? (fun r => r.index == j && qualifies ms r)
          with
        | some r => r.candidates.head?.map Candidate.symbol
        | none => st.overrides j := by
  induction rows generalizing st with
  | nil => rfl
  | cons r rows ih =>
    have hstep : bulkApplyTopCandidates ms (r :: rows) st
        = bulkApplyTopCandidates ms rows (bulkStep ms st r) := rfl
    rw [hstep, ih (bulkStep ms st r), List.reverse_cons, List.find?_append]
    cases hf : rows.reverse.find?
        (fun r => r.index == j && qualifies ms r) with
    | some r' => rfl
    | none =>
      simp only [Option.none_or]
      by_cases hq : qualifies ms r = true
      · by_cases hj : r.index = j
        · have hfr : List.find?
              (fun r => r.index == j && qualifies ms r) [r] = some r := by
            simp [List.find?, hj, hq]
          rw [hfr]
          cases hc : r.candidates with
          | nil => exact absurd hc (qualifies_candidates_ne_nil hq)
          | cons top tl =>
            rw [bulkStep_eq, if_pos hq]
            simp [bulkApplyRowUpdate, hj, hc]
        · have hfr : List.find?
              (fun r => r.index == j && qualifies ms r) [r] = none := by
            have hb : (r.index == j) = false := by simp [hj]
            simp [List.find?, hb]
          rw [hfr, bulkStep_eq, if_pos hq]
          cases hc : r.candidates with
          | nil => exact absurd hc (qualifies_candidates_ne_nil hq)
          | cons top tl =>
            have hj2 : j ≠ r.index := fun h => hj h.symm
            simp [bulkApplyRowUpdate, hj2]
      · have hfr : List.find?
            (fun r => r.index == j && qualifies ms r) [r] = none := by
          simp [List.find?, hq]
        rw [hfr, bulkStep_eq, if_neg hq]

/-- Alias-map characterization of bulk apply: the learned symbol for a
non-empty normalized name `k` is the top candidate symbol of the last
qualifying visible row normalizing to `k`; the empty key and keys of
non-qualifying rows are untouched. -/
theorem bulkApply_aliases_char (ms : ℚ) (rows : List PreviewRow)
    (st : SessionState) (k : String) :
    (bulkApplyTopCandidates ms rows st).aliases k
      = if k = "" then st.aliases k
        else
          match rows.reverse.find?
              (fun r => norm r.Name == k && qualifies ms r) with
          | some r => r.candidates.head?.map Candidate.symbol
          | none => st.aliases k := by
  induction rows generalizing st with
  | nil =>
    by_cases hk : k = "" <;> simp [bulkApplyTopCandidates, hk]
  | cons r rows ih =>
    have hstep : bulkApplyTopCandidates ms (r :: rows) st
        = bulkApplyTopCandidates ms rows (bulkStep ms st r) := rfl
    rw [hstep, ih (bulkStep ms st r)]
    by_cases hk : k = ""
    · rw [if_pos hk, if_pos hk]
      rw [bulkStep_eq]
      by_cases hq : qualifies ms r = true
      · rw [if_pos hq]
        cases hc : r.candidates with
        | nil => exact absurd hc (qualifies_candidates_ne_nil hq)
        | cons top tl =>
          by_cases hn : norm r.Name = ""
          · simp [bulkApplyRowUpdate, hn]
          · have hn3 : ("" : String) ≠ norm r.Name := fun h => hn h.symm
            simp [bulkApplyRowUpdate, hn, hk, hn3]
      · rw [if_neg hq]
    · rw [if_neg hk, if_neg hk, List.reverse_cons, List.find?_append]
      cases hf : rows.reverse.find?
          (fun r => norm r.Name == k && qualifies ms r) with
      | some r' => rfl
      | none =>
        simp only [Option.none_or]
        by_cases hq : qualifies ms r = true
        · by_cases hn : norm r.Name = k
          · have hfr : List.find?
                (fun r => norm r.Name == k && qualifies ms r) [r]
                  = some r := by
              simp [List.find?, hn, hq]
            rw [hfr]
            cases hc : r.candidates with
            | nil => exact absurd hc (qualifies_candidates_ne_nil hq)
            | cons top tl =>
              rw [bulkStep_eq, if_pos hq]
              have hn2 : norm r.Name ≠ "" := by rw [hn]; exact hk
              simp [bulkApplyRowUpdate, hn, hn2, hc, hk]
          · have hfr : List.find?
                (fun r => norm r.Name == k && qualifies ms r) [r]
                  = none := by
              have hb : (norm r.Name == k) = false := by simp [hn]
              simp [List.find?, hb]
            rw [hfr, bulkStep_eq, if_pos hq]
            cases hc : r.candidates with
            | nil => exact absurd hc (qualifies_candidates_ne_nil hq)
            | cons top tl =>
              by_cases hn0 : norm r.Name = ""
              · simp [bulkApplyRowUpdate, hn0]
              · have hn4 : k ≠ norm r.Name := fun h => hn h.symm
                simp [bulkApplyRowUpdate, hn0, hn4]
        · have hfr : List.find?
              (fun r => norm r.Name == k && qualifies ms r) [r] = none := by
            simp [List.find?, hq]
          rw [hfr, bulkStep_eq, if_neg hq]

/-- C5 counterexample: a FILLED row whose top candidate has no score is
bulk-applied even under threshold 0.8 — the override map is written, where
the claim requires the row (score not ≥ 0.8) to be left untouched. -/
theorem bulkApply_counterexample :
    (bulkApplyTopCandidates 0.8
        [⟨0, "FILLED", [⟨"XOM", "Exxon Mobil", none, none, none⟩],
          none, none⟩]
        ⟨fun _ => none, fun _ => none⟩).overrides 0 = some "XOM" ∧
    (bulkApplyTopCandidates 0.8
        [⟨0, "FILLED", [⟨"XOM", "Exxon Mobil", none, none, none⟩],
          none, none⟩]
        ⟨fun _ => none, fun _ => none⟩).overrides 0
      ≠ (⟨fun _ => none, fun _ => none⟩ : SessionState).overrides 0 := by
  constructor
  · rfl
  · intro h
    exact Option.noConfusion h

/-- C5 amended: bulk-apply sets an override (and learns an alias when the
row's normalized name is non-empty) for exactly those filtered rows of
status FILLED or AMBIGUOUS with at least one candidate whose top-candidate
score is either missing or ≥ the threshold; rows with a present score below
the threshold, or without candidates, are untouched, and when several such
rows share an index or a name the last one wins.  In particular, for
top-candidate scores [0.9, 0.7, 0.5] and threshold 0.8, only the 0.9 row
receives an override. -/
theorem bulkApplyTopCandidates_spec (ms : ℚ) (rows : List PreviewRow)
    (st : SessionState) :
    (∀ j : ℕ, (bulkApplyTopCandidates ms rows st).overrides j
      = match rows.reverse.find? (fun r => r.index == j && qualifies ms r)
          with
        | some r => r.candidates.head?.map Candidate.symbol
        | none => st.overrides j) ∧
    (∀ k : String, (bulkApplyTopCandidates ms rows st).aliases k
      = if k = "" then st.aliases k
        else
          match rows.reverse.find?
              (fun r => norm r.Name == k && qualifies ms r) with
          | some r => r.candidates.head?.map Candidate.symbol
          | none => st.aliases k) ∧
    ((bulkApplyTopCandidates 0.8
        [⟨0, "AMBIGUOUS", [⟨"A", "Alpha", none, some 0.9, none⟩],
          none, none⟩,
         ⟨1, "AMBIGUOUS", [⟨"B", "Beta", none, some 0.7, none⟩],
          none, none⟩,
         ⟨2, "AMBIGUOUS", [⟨"C", "Gamma", none, some 0.5, none⟩],
          none, none⟩]
        ⟨fun _ => none, fun _ => none⟩).overrides 0 = some "A" ∧
     (bulkApplyTopCandidates 0.8
        [⟨0, "AMBIGUOUS", [⟨"A", "Alpha", none, some 0.9, none⟩],
          none, none⟩,
         ⟨1, "AMBIGUOUS", [⟨"B", "Beta", none, some 0.7, none⟩],
          none, none⟩,
         ⟨2, "AMBIGUOUS", [⟨"C", "Gamma", none, some 0.5, none⟩],
          none, none⟩]
        ⟨fun _ => none, fun _ => none⟩).overrides 1 = none ∧
     (bulkApplyTopCandidates 0.8
        [⟨0, "AMBIGUOUS", [⟨"A", "Alpha", none, some 0.9, none⟩],
          none, none⟩,
         ⟨1, "AMBIGUOUS", [⟨"B", "Beta", none, some 0.7, none⟩],
          none, none⟩,
         ⟨2, "AMBIGUOUS", [⟨"C", "Gamma", none, some 0.5, none⟩],
          none, none⟩]
        ⟨fun _ => none, fun _ => none⟩).overrides 2 = none) := by
  refine ⟨bulkApply_overrides_char ms rows st,
    bulkApply_aliases_char ms rows st, ?_⟩
  have s1 : ∀ s : SessionState, bulkStep 0.8 s
      (⟨0, "AMBIGUOUS", [⟨"A", "Alpha", none, some 0.9, none⟩],
        none, none⟩ : PreviewRow)
      = bulkApplyRowUpdate s
        ⟨0, "AMBIGUOUS", [⟨"A", "Alpha", none, some 0.9, none⟩],
          none, none⟩
        ⟨"A", "Alpha", none, some 0.9, none⟩ := by
    intro s
    norm_num [bulkStep]
  have s2 : ∀ s : SessionState, bulkStep 0.8 s
      (⟨1, "AMBIGUOUS", [⟨"B", "Beta", none, some 0.7, none⟩],
        none, none⟩ : PreviewRow) = s := by
    intro s
    norm_num [bulkStep]
  have s3 : ∀ s : SessionState, bulkStep 0.8 s
      (⟨2, "AMBIGUOUS", [⟨"C", "Gamma", none, some 0.5, none⟩],
        none, none⟩ : PreviewRow) = s := by
    intro s
    norm_num [bulkStep]
  have hunf : bulkApplyTopCandidates 0.8
      [⟨0, "AMBIGUOUS", [⟨"A", "Alpha", none, some 0.9, none⟩],
        none, none⟩,
       ⟨1, "AMBIGUOUS", [⟨"B", "Beta", none, some 0.7, none⟩],
        none, none⟩,
       ⟨2, "AMBIGUOUS", [⟨"C", "Gamma", none, some 0.5, none⟩],
        none, none⟩]
      ⟨fun _ => none, fun _ => none⟩
      = bulkStep 0.8 (bulkStep 0.8 (bulkStep 0.8
          ⟨fun _ => none, fun _ => none⟩
          ⟨0, "AMBIGUOUS", [⟨"A", "Alpha", none, some 0.9, none⟩],
            none, none⟩)
          ⟨1, "AMBIGUOUS", [⟨"B", "Beta", none, some 0.7, none⟩],
            none, none⟩)
          ⟨2, "AMBIGUOUS", [⟨"C", "Gamma", none, some 0.5, none⟩],
            none, none⟩ := rfl
  have e : bulkApplyTopCandidates 0.8
      [⟨0, "AMBIGUOUS", [⟨"A", "Alpha", none, some 0.9, none⟩],
        none, none⟩,
       ⟨1, "AMBIGUOUS", [⟨"B", "Beta", none, some 0.7, none⟩],
        none, none⟩,
       ⟨2, "AMBIGUOUS", [⟨"C", "Gamma", none, some 0.5, none⟩],
        none, none⟩]
      ⟨fun _ => none, fun _ => none⟩
      = bulkApplyRowUpdate ⟨fun _ => none, fun _ => none⟩
        ⟨0, "AMBIGUOUS", [⟨"A", "Alpha", none, some 0.9, none⟩],
          none, none⟩
        ⟨"A", "Alpha", none, some 0.9, none⟩ := by
    rw [hunf, s1, s2, s3]
  rw [e]
  exact ⟨rfl, rfl, rfl⟩

/-- C10: clearing a row's override (setting it to the empty value) removes
exactly that row's entry from the override map; every other row's override
and the entire learned-alias map are unchanged. -/
theorem setOverrideForRow_clear (rows : List PreviewRow)
    (st : SessionState) (i : ℕ) :
    (setOverrideForRow rows st i "").overrides i = none ∧
    (∀ j : ℕ, j ≠ i →
      (setOverrideForRow rows st i "").overrides j = st.overrides j) ∧
    (setOverrideForRow rows st i "").aliases = st.aliases := by
  have h : setOverrideForRow rows st i ""
      = { st with overrides :=
          fun j => if j = i then none else st.overrides j } := by
    unfold setOverrideForRow
    rw [if_pos rfl]
  rw [h]
  exact ⟨by simp, fun j hj => by simp [hj], rfl⟩

/-- Witness: `setOverrideForRow_clear` on a state holding overrides for
rows 0 and 1 and a learned alias: clearing row 0 leaves row 1's override
and the alias in place. -/
theorem setOverrideForRow_clear_witness :
    (setOverrideForRow []
        ⟨fun j => if j = 0 then some "B" else if j = 1 then some "A"
          else none,
         fun k => if k = "apple inc." then some "AAPL" else none⟩
        0 "").overrides 0 = none ∧
    (setOverrideForRow []
        ⟨fun j => if j = 0 then some "B" else if j = 1 then some "A"
          else none,
         fun k => if k = "apple inc." then some "AAPL" else none⟩
        0 "").overrides 1 = some "A" ∧
    (setOverrideForRow []
        ⟨fun j => if j = 0 then some "B" else if j = 1 then some "A"
          else none,
         fun k => if k = "apple inc." then some "AAPL" else none⟩
        0 "").aliases "apple inc." = some "AAPL" := by
  have h := setOverrideForRow_clear []
    ⟨fun j => if j = 0 then some "B" else if j = 1 then some "A" else none,
     fun k => if k = "apple inc." then some "AAPL" else none⟩ 0
  refine ⟨h.1, ?_, ?_⟩
  · rw [h.2.1 1 (by decide)]
    rfl
  · rw [h.2.2]
    simp

/-- Witness: `planCommit_deterministic` at a concrete input. -/
theorem planCommit_deterministic_witness :
    planCommit (fun _ => none)
        [⟨0, "AMBIGUOUS", [⟨"AAPL", "Apple Inc", none, some 0.9, none⟩],
          some "Apple Inc.", none⟩]
        (fun i => if i = 0 then some "AAPL" else none)
      = planCommit (fun _ => none)
        [⟨0, "AMBIGUOUS", [⟨"AAPL", "Apple Inc", none, some 0.9, none⟩],
          some "Apple Inc.", none⟩]
        (fun i => if i = 0 then some "AAPL" else none) :=
  planCommit_deterministic _ _ _ _ _ _ rfl rfl rfl

end Ticker
